import Mathlib

/-!
# Verification of the `pixels-ray` progressive path tracer

A shallow embedding of `pixels-ray/src/main.rs` (the renderer driver of the
repository). Scalars of the Rust `f64` computations are modelled by `ℚ`; the
value `f64::INFINITY`, used only as the initial upper bound of the nearest-hit
scan, is modelled by `⊤ : WithTop ℚ`. The external `ray_tracing` crate
(sphere intersection, material scattering, camera ray generation, background
gradient, random draws) is not part of the embedded source; its operations are
abstract parameters bundled in `RTOps`, so every theorem about the driver code
holds for all implementations of the crate's interface.
-/

set_option autoImplicit false

namespace PixelsRay

/-- Three-component vector of the `ray_tracing` crate, used both as point and as
color. Modelled from the spec: componentwise arithmetic, `64-bit float`
components modelled by `ℚ`. -/
structure Vec3 where
  x : ℚ
  y : ℚ
  z : ℚ
  deriving DecidableEq, Repr

/-- Colors are vectors, as in the source (`Color` / `Vector` aliases). -/
abbrev Color := Vec3

instance : Add Vec3 := ⟨fun u v => ⟨u.x + v.x, u.y + v.y, u.z + v.z⟩⟩

instance : Sub Vec3 := ⟨fun u v => ⟨u.x - v.x, u.y - v.y, u.z - v.z⟩⟩

/-- Modelled from the spec: color/vector multiplication is componentwise
(attenuation multiplies along the path; albedo is an elementwise product of
random draws). -/
instance : Mul Vec3 := ⟨fun u v => ⟨u.x * v.x, u.y * v.y, u.z * v.z⟩⟩

/-- Scalar multiplication `Vector * f64` (componentwise). -/
def Vec3.smul (v : Vec3) (q : ℚ) : Vec3 := ⟨v.x * q, v.y * q, v.z * q⟩

/-- Scalar addition `Vector + f64` (componentwise), used in the metal albedo
draw `rng.gen::<Vector>() * 0.5 + 0.5`. -/
def Vec3.sadd (v : Vec3) (q : ℚ) : Vec3 := ⟨v.x + q, v.y + q, v.z + q⟩

/-- Scalar division `Color / f64` (componentwise), used by `Pixels::iter`. -/
def Vec3.sdiv (v : Vec3) (q : ℚ) : Vec3 := ⟨v.x / q, v.y / q, v.z / q⟩

/-- Elementwise `powf(2.0)`, used in the Lambertian albedo draw. -/
def Vec3.powf2 (v : Vec3) : Vec3 := ⟨v.x ^ 2, v.y ^ 2, v.z ^ 2⟩

/-- Squared Euclidean norm. The source tests `(center - p).norm() < 0.9`;
`norm` is the nonnegative square root of `normSq`, so that comparison is
equivalent to `normSq < 0.81`, which stays inside `ℚ`. -/
def Vec3.normSq (v : Vec3) : ℚ := v.x * v.x + v.y * v.y + v.z * v.z

/-- The constant `ray_tracing::BLACK`. -/
def BLACK : Color := ⟨0, 0, 0⟩

/-- The type `ray_tracing::Ray`: origin and direction. -/
structure Ray where
  origin : Vec3
  direction : Vec3
  deriving DecidableEq, Repr

/-- The type `ray_tracing::HitPoint`: intersection record. -/
structure HitPoint where
  point : Vec3
  normal : Vec3
  t : ℚ
  front_face : Bool
  deriving DecidableEq, Repr

/-- The type `ray_tracing::Sphere`. -/
structure Sphere where
  center : Vec3
  radius : ℚ
  deriving DecidableEq, Repr

/-- The constructor `Sphere::new(center, radius)`. -/
def Sphere.new (center : Vec3) (radius : ℚ) : Sphere := ⟨center, radius⟩

/-- The type `ray_tracing::Material`: tagged variant over the three scattering models. -/
inductive Material where
  | lambertian (color : Color)
  | metal (color : Color) (fuzz : ℚ)
  | dielectric (index_of_refraction : ℚ)
  deriving DecidableEq, Repr

/-- The type `Object` of `main.rs`: one sphere plus one material. -/
structure Object where
  sphere : Sphere
  material : Material
  deriving DecidableEq, Repr

/-- The camera `ray_tracing::FiniteApertureCamera`, modelled from the spec as the record
of its construction parameters (`CameraBuilder` inputs): look-from, look-at,
vertical field of view, aspect ratio, blur (aperture). The camera is immutable
after construction and fully determined by these. -/
structure FiniteApertureCamera where
  look_from : Vec3
  look_at : Vec3
  vertical_field_of_view : ℚ
  aspect_ratio : ℚ
  blur : ℚ
  deriving DecidableEq, Repr

/-- The `World` resource: camera plus ordered object list. -/
structure World where
  camera : FiniteApertureCamera
  objects : List Object
  deriving DecidableEq, Repr

/-- The operations the driver consumes from the external `ray_tracing` crate
and from the random generator, abstract here because their code is outside the
embedded source. `R` is the state of the random generator (`StdRng`), threaded
explicitly exactly as the Rust code threads `&mut R`.
  - `sphereHit s ray tMax` models `s.hit(&ray, t_max)`;
  - `scatter m rng ray h` models `m.scatter(rng, &ray, &h)`;
  - `background ray` models `ray.background()`;
  - `genRangeNat rng n` models `rng.gen_range(0..n)`;
  - `genF rng` models `rng.gen::<f64>()`;
  - `genRange rng lo hi` models `rng.gen_range(lo..hi)`;
  - `genVector rng` models `rng.gen::<Vector>()`;
  - `cameraGetRay c rng u v` models `c.get_ray(rng, u, v)`. -/
structure RTOps (R : Type) where
  sphereHit : Sphere → Ray → WithTop ℚ → Option HitPoint
  scatter : Material → R → Ray → HitPoint → Option (Ray × Color) × R
  background : Ray → Color
  genRangeNat : R → ℕ → ℕ × R
  genF : R → ℚ × R
  genRange : R → ℚ → ℚ → ℚ × R
  genVector : R → Vec3 × R
  cameraGetRay : FiniteApertureCamera → R → ℚ → ℚ → Ray × R

/-- The scan loop of `World::ray_color` (`main.rs` lines 108–117): walk the
objects in order with a running `t_max` (initially `+∞`) and the current best
hit; replace the best exactly when the object reports a hit and the best is
absent or strictly worse (`!matches!(hit, Some((now, _)) if now.t <= new.t)`). -/
def hitLoop (objHit : Object → WithTop ℚ → Option HitPoint) :
    List Object → WithTop ℚ → Option (HitPoint × Material) →
    Option (HitPoint × Material)
  | [], _, best => best
  | o :: rest, tMax, best =>
    match objHit o tMax with
    | none => hitLoop objHit rest tMax best
    | some newHit =>
      match best with
      | none => hitLoop objHit rest (newHit.t : WithTop ℚ) (some (newHit, o.material))
      | some (nowHit, m) =>
        if nowHit.t ≤ newHit.t then
          hitLoop objHit rest tMax (some (nowHit, m))
        else
          hitLoop objHit rest (newHit.t : WithTop ℚ) (some (newHit, o.material))

/-- Scene-level nearest-hit resolution: the scan loop started at
`t_max = f64::INFINITY` with no current hit. -/
def nearestHit (objHit : Object → WithTop ℚ → Option HitPoint)
    (objects : List Object) : Option (HitPoint × Material) :=
  hitLoop objHit objects ⊤ none

/-- The function `World::ray_color` (`main.rs` lines 104–127), over a world's object list.
Returns the color together with the random generator state, since Rust threads
`&mut R` through `scatter` and the recursive call. -/
def ray_color {R : Type} (ops : RTOps R) (objects : List Object)
    (rng : R) (ray : Ray) : ℕ → Color × R
  | 0 => (BLACK, rng)
  | depth + 1 =>
    match nearestHit (fun o tMax => ops.sphereHit o.sphere ray tMax) objects with
    | some (h, mate) =>
      match ops.scatter mate rng ray h with
      | (some (ray', attenuation), rng') =>
        let (c, rng'') := ray_color ops objects rng' ray' depth
        (attenuation * c, rng'')
      | (none, rng') => (BLACK, rng')
    | none => (ops.background ray, rng)

/-- A variant of `ray_color` that additionally reports the nesting depth of
the recursion it performed (0 when no recursive call is made, `n + 1` when the
scattered ray's evaluation performed `n` nested calls). -/
def ray_color_steps {R : Type} (ops : RTOps R) (objects : List Object)
    (rng : R) (ray : Ray) : ℕ → Color × R × ℕ
  | 0 => (BLACK, rng, 0)
  | depth + 1 =>
    match nearestHit (fun o tMax => ops.sphereHit o.sphere ray tMax) objects with
    | some (h, mate) =>
      match ops.scatter mate rng ray h with
      | (some (ray', attenuation), rng') =>
        let (c, rng'', n) := ray_color_steps ops objects rng' ray' depth
        (attenuation * c, rng'', n + 1)
      | (none, rng') => (BLACK, rng', 0)
    | none => (ops.background ray, rng, 0)

/-! ## The accumulation buffer (`Pixels`) -/

/-- The `Pixels` resource: width, height, and a dense per-pixel vector of
(running color sum, sample count). -/
structure Pixels where
  width : ℕ
  height : ℕ
  pixels : List (Color × ℕ)
  deriving DecidableEq, Repr

/-- The constructor `Pixels::new(width, height)`. -/
def Pixels.new (width height : ℕ) : Pixels :=
  ⟨width, height, List.replicate (width * height) (BLACK, 0)⟩

/-- In-place update of entry `i` of the pixel vector:
`pixels[i].0 += color; pixels[i].1 += 1`. Out-of-range indices leave the list
unchanged (in Rust such an access panics; the driver only indexes in bounds,
guarded by the frame-length assertion). -/
def bump (color : Color) : ℕ → List (Color × ℕ) → List (Color × ℕ)
  | _, [] => []
  | 0, (c, n) :: rest => (c + color, n + 1) :: rest
  | i + 1, e :: rest => e :: bump color i rest

/-- The method `Pixels::add_color(x, y, color)` (`main.rs` lines 146–150): add `color` to
the running sum at index `y * width + x` and increment that sample count. -/
def add_color (p : Pixels) (x y : ℕ) (color : Color) : Pixels :=
  { p with pixels := bump color (y * p.width + x) p.pixels }

/-- The method `Pixels::iter` (`main.rs` lines 152–160): the averaged snapshot, one color
per pixel in buffer order: `sum / count` when `count > 0`, else black. -/
def Pixels.iter (p : Pixels) : List Color :=
  p.pixels.map (fun e => if 0 < e.2 then e.1.sdiv (e.2 : ℚ) else BLACK)

/-- Replay a list of `add_color` calls against a buffer, in order. -/
def runAdds : Pixels → List (ℕ × ℕ × Color) → Pixels
  | p, [] => p
  | p, (x, y, c) :: rest => runAdds (add_color p x y c) rest

/-! ## Display conversion (`draw`, lines 215–221) -/

/-- One channel's byte: `(q * 255.0).clamp(0.0, 255.0) as u8`. Rust's `as u8`
on an `f64` already clamped to `[0, 255]` truncates toward zero, i.e. takes the
floor of the nonnegative value. -/
def byteOfChannel (q : ℚ) : ℕ := (Int.floor (max 0 (min (q * 255) 255))).toNat

/-- The conversion loop of `draw` (`main.rs` lines 215–221): for each averaged
color of `Pixels::iter`, in buffer order, emit the three channel bytes followed
by the constant alpha byte 255. The Rust code writes these at `frame[i*4 .. i*4+4)`,
which is this concatenation given the asserted frame length. -/
def to_display_bytes (p : Pixels) : List ℕ :=
  p.iter.flatMap (fun c => [byteOfChannel c.x, byteOfChannel c.y, byteOfChannel c.z, 255])

/-- One sampling iteration of `draw`'s batch loop (`main.rs` lines 209–214),
after `get_ray` and `ray_color` produced `(x, y, color)`: the pixel y
coordinate is flipped (`let y = pixels.height - 1 - y;`) and the sample is
deposited. -/
def depositSample (p : Pixels) (x y : ℕ) (color : Color) : Pixels :=
  add_color p x (p.height - 1 - y) color

/-! ## Scene construction (`World::from_rng`, lines 25–89) -/

/-- The exclusion test's reference point in the source:
`vec3!(4.0, 0.2, 0.0)` (`main.rs` line 47). -/
def exclusionPoint : Vec3 := ⟨4, 1/5, 0⟩

/-- The jittered center of grid cell `(a, b)` given the generator state `r`:
`vec3!(a + gen_range(0.0..0.9), 0.2, b + gen_range(0.0..0.9))`, with the two
draws taken in argument order. Returns the center and the advanced state. -/
def cellCenter {R : Type} (ops : RTOps R) (r : R) (a b : ℤ) : Vec3 × R :=
  let (j1, r) := ops.genRange r 0 (9/10)
  let (j2, r) := ops.genRange r 0 (9/10)
  (⟨(a : ℚ) + j1, 1/5, (b : ℚ) + j2⟩, r)

/-- The body of one grid iteration of `World::from_rng` (`main.rs` lines
42–66): compute the jittered center; skip (`continue`) when it lies within 0.9
of `vec3!(4.0, 0.2, 0.0)` (norm comparison done on squares); otherwise draw the
material by threshold on a `[0,1)` draw and build the radius-0.2 sphere. -/
def cellStep {R : Type} (ops : RTOps R) (r : R) (a b : ℤ) : Option Object × R :=
  let (center, r) := cellCenter ops r a b
  if (center - exclusionPoint).normSq < 81/100 then
    (none, r)
  else
    let (rv, r) := ops.genRange r 0 1
    if rv < 4/5 then
      let (v1, r) := ops.genVector r
      let (v2, r) := ops.genVector r
      (some ⟨Sphere.new center (1/5), Material.lambertian (v1 * v2.powf2)⟩, r)
    else if rv < 19/20 then
      let (v, r) := ops.genVector r
      let (fuzz, r) := ops.genRange r 0 (1/2)
      (some ⟨Sphere.new center (1/5), Material.metal ((v.smul (1/2)).sadd (1/2)) fuzz⟩, r)
    else
      (some ⟨Sphere.new center (1/5), Material.dielectric (3/2)⟩, r)

/-- The nested grid loops `for a in -11..11 { for b in -11..11 { ... } }` visit
these cells in this order. -/
def gridCells : List (ℤ × ℤ) :=
  (List.range 22).flatMap (fun i =>
    (List.range 22).map (fun j => ((i : ℤ) - 11, (j : ℤ) - 11)))

/-- Run the grid loop over a list of cells, appending each kept sphere. -/
def buildGrid {R : Type} (ops : RTOps R) : List (ℤ × ℤ) → List Object → R →
    List Object × R
  | [], acc, r => (acc, r)
  | (a, b) :: rest, acc, r =>
    match cellStep ops r a b with
    | (some o, r') => buildGrid ops rest (acc ++ [o]) r'
    | (none, r') => buildGrid ops rest acc r'

/-- The constructor `World::from_rng` (`main.rs` lines 25–89): camera from fixed builder
parameters and the supplied aspect ratio; ground sphere; jittered grid; three
hero spheres. Returns the world and the advanced generator state (the Rust
caller keeps using the same generator afterwards). -/
def World.from_rng {R : Type} (ops : RTOps R) (rng : R) (aspect_ratio : ℚ) :
    World × R :=
  let camera : FiniteApertureCamera :=
    ⟨⟨13, 2, 3⟩, ⟨0, 0, 0⟩, 20, aspect_ratio, 1/10⟩
  let ground : Object :=
    ⟨Sphere.new ⟨0, -1000, 0⟩ 1000, Material.lambertian ⟨1/2, 1/2, 1/2⟩⟩
  let (grid, rng) := buildGrid ops gridCells [] rng
  let heroes : List Object :=
    [⟨Sphere.new ⟨0, 1, 0⟩ 1, Material.dielectric (3/2)⟩,
     ⟨Sphere.new ⟨-4, 1, 0⟩ 1, Material.lambertian ⟨2/5, 1/5, 1/10⟩⟩,
     ⟨Sphere.new ⟨4, 1, 0⟩ 1, Material.metal ⟨7/10, 3/5, 1/2⟩ 0⟩]
  (⟨camera, ground :: grid ++ heroes⟩, rng)

/-! ## The per-tick driver (`get_ray` and `draw`) -/

/-- The method `World::get_ray` (`main.rs` lines 91–102): draw a pixel, a sub-pixel
offset, and a camera ray. -/
def World.get_ray {R : Type} (ops : RTOps R) (w : World) (rng : R)
    (width height : ℕ) : (ℕ × ℕ × Ray) × R :=
  let (x, rng) := ops.genRangeNat rng width
  let (y, rng) := ops.genRangeNat rng height
  let (du, rng) := ops.genF rng
  let (dv, rng) := ops.genF rng
  let u := ((x : ℚ) + du) / (width : ℚ)
  let v := ((y : ℚ) + dv) / (height : ℚ)
  let (ray, rng) := ops.cameraGetRay w.camera rng u v
  ((x, y, ray), rng)

/-- The sampling batch of `draw` (`main.rs` lines 209–214): `count` iterations
of sample / evaluate at depth 50 / flip y / deposit. -/
def render_batch {R : Type} (ops : RTOps R) (w : World) :
    ℕ → Pixels → R → Pixels × R
  | 0, p, rng => (p, rng)
  | count + 1, p, rng =>
    let ((x, y, ray), rng) := World.get_ray ops w rng p.width p.height
    let (color, rng) := ray_color ops w.objects rng ray 50
    render_batch ops w count (depositSample p x y color) rng

/-- One full `draw` tick: a batch of `count` samples followed by the conversion
of the buffer to display bytes. -/
def drawTick {R : Type} (ops : RTOps R) (w : World) (count : ℕ) (p : Pixels)
    (rng : R) : List ℕ × Pixels × R :=
  let (p', rng') := render_batch ops w count p rng
  (to_display_bytes p', p', rng')

/-- A sequence of `draw` ticks with the given per-tick sample counts,
collecting each tick's display bytes. -/
def drawTicks {R : Type} (ops : RTOps R) (w : World) :
    List ℕ → Pixels → R → List (List ℕ) × Pixels × R
  | [], p, rng => ([], p, rng)
  | count :: rest, p, rng =>
    let (bytes, p', rng') := drawTick ops w count p rng
    let (frames, p'', rng'') := drawTicks ops w rest p' rng'
    (bytes :: frames, p'', rng'')

/-- A whole run: build the world from the generator state and the aspect
ratio, then execute the given tick sequence from a fresh buffer. -/
def runPipeline {R : Type} (ops : RTOps R) (rng : R) (aspect_ratio : ℚ)
    (width height : ℕ) (ticks : List ℕ) : List (List ℕ) :=
  let (w, rng) := World.from_rng ops rng aspect_ratio
  (drawTicks ops w ticks (Pixels.new width height) rng).1

/-! ## Spec-side definitions (for refinement comparisons)

These definitions follow the specification's words, not the source; each is
compared against the corresponding source-derived definition above. -/

/-- The per-object "full" hit of the spec's §4.3 reading: what the object
reports with no upper bound. An `objHit` conforms to the spec's intersection
contract (§4.2: the accepted parameter lies in the open interval below
`t_max`, and shrinking `t_max` only filters hits out from above) when it
returns the full hit exactly while that hit's `t` is below the bound. -/
def HitContract (objHit : Object → WithTop ℚ → Option HitPoint)
    (fullHit : Object → Option HitPoint) : Prop :=
  ∀ o tMax, objHit o tMax =
    match fullHit o with
    | some h => if (h.t : WithTop ℚ) < tMax then some h else none
    | none => none

/-- Modelled from the spec (§4.3): scan every object in scene order, keeping
the minimal-`t` hit with ties broken by first-encountered ("first wins"), each
object queried for its full hit (no running bound). -/
def specScan (fullHit : Object → Option HitPoint) :
    List Object → Option (HitPoint × Material) → Option (HitPoint × Material)
  | [], best => best
  | o :: rest, best =>
    match fullHit o, best with
    | none, _ => specScan fullHit rest best
    | some h, none => specScan fullHit rest (some (h, o.material))
    | some h, some (h₀, m₀) =>
      if h₀.t ≤ h.t then specScan fullHit rest (some (h₀, m₀))
      else specScan fullHit rest (some (h, o.material))

/-- Modelled from the spec (§4.3): the nearest hit as the spec words it. -/
def specNearest (fullHit : Object → Option HitPoint) (objects : List Object) :
    Option (HitPoint × Material) :=
  specScan fullHit objects none

/-- Modelled from the spec (§4.7): the claimed per-channel display byte,
`round(clamp(channel, 0, 1) * 255)`. -/
def roundSpecByte (q : ℚ) : ℤ := round ((max 0 (min q 1)) * 255)

/-- Modelled from the spec (§6): a conversion that inverts the y coordinate —
output row `r` takes the averaged colors of buffer row `height − 1 − r`. -/
def specFlippedBytes (p : Pixels) : List ℕ :=
  (List.range (p.width * p.height)).flatMap (fun i =>
    match p.iter.get? ((p.height - 1 - i / p.width) * p.width + i % p.width) with
    | some c => [byteOfChannel c.x, byteOfChannel c.y, byteOfChannel c.z, 255]
    | none => [])

/-- The exclusion point named by the claim under examination: `(3, 2, 0)`. -/
def claimedExclusionPoint : Vec3 := ⟨3, 2, 0⟩

/-! ## Concrete instances used by witnesses and counterexamples -/

/-- A trivial concrete implementation of the external interface over the
one-point generator state: every sphere misses, every material absorbs, every
draw returns 0, the background is white. -/
def unitOps : RTOps Unit where
  sphereHit := fun _ _ _ => none
  scatter := fun _ r _ _ => (none, r)
  background := fun _ => ⟨1, 1, 1⟩
  genRangeNat := fun r _ => (0, r)
  genF := fun r => (0, r)
  genRange := fun r _ _ => (0, r)
  genVector := fun r => (⟨0, 0, 0⟩, r)
  cameraGetRay := fun _ r _ _ => (⟨⟨0, 0, 0⟩, ⟨0, 0, 1⟩⟩, r)

/-- A concrete ray for witnesses. -/
def ray0 : Ray := ⟨⟨0, 0, 0⟩, ⟨0, 0, 1⟩⟩

/-! ## Claim theorems -/

/-- C6: `ray_color` called with depth 0 returns exactly black, for every ray,
every scene, and every state of the random source (which is returned
unchanged). -/
theorem claim_C6_depth_zero_black {R : Type} (ops : RTOps R)
    (objects : List Object) (rng : R) (ray : Ray) :
    ray_color ops objects rng ray 0 = (BLACK, rng) := rfl

/-- C1: for every ray and every positive depth, `ray_color` satisfies the
recursive definition: when the nearest hit exists and its material scatters,
the result is the attenuation times `ray_color` of the scattered ray at
depth − 1 (with the generator state threaded through); when the material
absorbs, the result is black; when nothing is hit, the result is the ray's
background value. -/
theorem claim_C1_ray_color_recursion {R : Type} (ops : RTOps R)
    (objects : List Object) (rng : R) (ray : Ray) (depth : ℕ)
    (hd : 0 < depth) :
    (∀ h m ray' att rng',
      nearestHit (fun o tMax => ops.sphereHit o.sphere ray tMax) objects =
        some (h, m) →
      ops.scatter m rng ray h = (some (ray', att), rng') →
      ray_color ops objects rng ray depth =
        (att * (ray_color ops objects rng' ray' (depth - 1)).1,
         (ray_color ops objects rng' ray' (depth - 1)).2)) ∧
    (∀ h m rng',
      nearestHit (fun o tMax => ops.sphereHit o.sphere ray tMax) objects =
        some (h, m) →
      ops.scatter m rng ray h = (none, rng') →
      ray_color ops objects rng ray depth = (BLACK, rng')) ∧
    (nearestHit (fun o tMax => ops.sphereHit o.sphere ray tMax) objects =
        none →
      ray_color ops objects rng ray depth = (ops.background ray, rng)) := by
  obtain ⟨d, rfl⟩ : ∃ d, depth = d + 1 := ⟨depth - 1, by omega⟩
  refine ⟨?_, ?_, ?_⟩
  · intro h m ray' att rng' hnear hscat
    simp only [ray_color, hnear, hscat, Nat.add_sub_cancel]
  · intro h m rng' hnear hscat
    simp only [ray_color, hnear, hscat]
  · intro hnear
    simp only [ray_color, hnear]

/-- Witness for C1 at a concrete input: an empty scene, the trivial external
interface, depth 1 — the no-hit branch yields the background color. -/
theorem claim_C1_witness :
    ray_color unitOps [] () ray0 1 = (unitOps.background ray0, ()) :=
  (claim_C1_ray_color_recursion unitOps [] () ray0 1 (by decide)).2.2 rfl

/-- C9: `ray_color` terminates for every ray, depth, and scene — the
step-counting variant agrees with `ray_color` and performs at most `depth`
nested recursive calls (each call decreases the depth argument by one and the
recursion stops at zero). -/
theorem claim_C9_bounded_recursion {R : Type} (ops : RTOps R)
    (objects : List Object) :
    ∀ (depth : ℕ) (rng : R) (ray : Ray),
      (ray_color_steps ops objects rng ray depth).2.2 ≤ depth ∧
      ((ray_color_steps ops objects rng ray depth).1,
       (ray_color_steps ops objects rng ray depth).2.1) =
        ray_color ops objects rng ray depth := by
  intro depth
  induction depth with
  | zero =>
    intro rng ray
    exact ⟨Nat.le_refl 0, rfl⟩
  | succ d ih =>
    intro rng ray
    cases hnear : nearestHit (fun o tMax => ops.sphereHit o.sphere ray tMax)
        objects with
    | none =>
      simp only [ray_color_steps, ray_color, hnear]
      exact ⟨Nat.zero_le _, trivial⟩
    | some hm =>
      obtain ⟨h, m⟩ := hm
      cases hscat : ops.scatter m rng ray h with
      | mk so rng' =>
        cases so with
        | none =>
          simp only [ray_color_steps, ray_color, hnear, hscat]
          exact ⟨Nat.zero_le _, trivial⟩
        | some rc =>
          obtain ⟨ray', att⟩ := rc
          have hih := ih rng' ray'
          simp only [ray_color_steps, ray_color, hnear, hscat]
          refine ⟨Nat.succ_le_succ hih.1, ?_⟩
          rw [← hih.2]

/-- C8: determinism — the generator state is threaded explicitly through every
operation (as the Rust code threads `&mut StdRng`), so two runs from equal
generator states and equal aspect ratios construct identical worlds, and equal
tick sequences produce identical display bytes. -/
theorem claim_C8_determinism {R : Type} (ops : RTOps R) (r1 r2 : R)
    (a1 a2 : ℚ) (width height : ℕ) (ticks1 ticks2 : List ℕ)
    (hr : r1 = r2) (ha : a1 = a2) (ht : ticks1 = ticks2) :
    World.from_rng ops r1 a1 = World.from_rng ops r2 a2 ∧
    runPipeline ops r1 a1 width height ticks1 =
      runPipeline ops r2 a2 width height ticks2 := by
  subst hr; subst ha; subst ht
  exact ⟨rfl, rfl⟩

/-- Witness for C8 at a concrete input. -/
theorem claim_C8_witness :
    World.from_rng unitOps () (3/2) = World.from_rng unitOps () (3/2) ∧
    runPipeline unitOps () (3/2) 2 2 [1] =
      runPipeline unitOps () (3/2) 2 2 [1] :=
  claim_C8_determinism unitOps () () (3/2) (3/2) 2 2 [1] [1] rfl rfl rfl

/-! ## Componentwise unfolding lemmas for `Vec3` -/

theorem Vec3.add_def (u v : Vec3) :
    u + v = ⟨u.x + v.x, u.y + v.y, u.z + v.z⟩ := rfl

theorem Vec3.sub_def (u v : Vec3) :
    u - v = ⟨u.x - v.x, u.y - v.y, u.z - v.z⟩ := rfl

theorem Vec3.mul_def (u v : Vec3) :
    u * v = ⟨u.x * v.x, u.y * v.y, u.z * v.z⟩ := rfl

/-! ## Display-byte lemmas (C4, C5) -/

/-- The four bytes of one converted pixel. -/
def bytesOf (c : Color) : List ℕ :=
  [byteOfChannel c.x, byteOfChannel c.y, byteOfChannel c.z, 255]

theorem to_display_bytes_eq (p : Pixels) :
    to_display_bytes p = p.iter.flatMap bytesOf := rfl

theorem flat_bytes_length (l : List Color) :
    (l.flatMap bytesOf).length = 4 * l.length := by
  induction l with
  | nil => rfl
  | cons c rest ih =>
    simp [List.flatMap_cons, bytesOf, ih]
    ring

theorem flat_bytes_get (l : List Color) :
    ∀ (i k : ℕ), k < 4 →
      (l.flatMap bytesOf).get? (4 * i + k) =
        (l.get? i).map (fun c => (bytesOf c).getD k 0) := by
  induction l with
  | nil => intro i k _; rfl
  | cons c rest ih =>
    intro i k hk
    cases i with
    | zero =>
      rw [List.flatMap_cons, Nat.mul_zero, Nat.zero_add]
      rw [List.get?_append (by simp [bytesOf]; omega)]
      simp only [List.get?_cons_zero, Option.map_some]
      interval_cases k <;> rfl
    | succ i =>
      rw [List.flatMap_cons]
      have hlen : (bytesOf c).length = 4 := rfl
      have harith : 4 * (i + 1) + k = (bytesOf c).length + (4 * i + k) := by
        rw [hlen]; ring
      rw [harith, List.get?_append_right (by omega)]
      rw [Nat.add_sub_cancel_left]
      rw [ih i k hk]
      rfl

/-- C4 counterexample: at averaged channel value 1/2 (obtained, e.g., by two
samples summing to 1 on a channel), the byte the code produces (127, by
truncation) differs from the spec's `round(clamp(channel,0,1) * 255)` = 128.
The value 127.5 is exactly representable in `f64`, so the divergence is real
in the source's arithmetic as well. -/
theorem claim_C4_counterexample :
    (byteOfChannel (1/2) : ℤ) ≠ roundSpecByte (1/2) ∧
    to_display_bytes ⟨1, 1, [(⟨1, 0, 0⟩, 2)]⟩ = [127, 0, 0, 255] := by
  constructor
  · have hbyte : byteOfChannel (1/2) = 127 := by
      rw [byteOfChannel]
      norm_num
      decide
    have hround : roundSpecByte (1/2) = 128 := by
      rw [roundSpecByte, round_eq]
      norm_num
    rw [hbyte, hround]
    decide
  · simp only [to_display_bytes_eq, Pixels.iter, bytesOf, List.map_cons,
      List.map_nil, List.flatMap_cons, List.flatMap_nil, byteOfChannel,
      Vec3.sdiv]
    norm_num
    decide

/-- C4 (amended): producing a display frame maps every averaged channel value
in [0,1] to the byte `truncate(clamp(channel,0,1) * 255)` — the floor of
`channel * 255`, not its rounding — and writes the fixed alpha byte 255 at
every pixel's fourth position. -/
theorem claim_C4_display_bytes (q : ℚ) (h0 : 0 ≤ q) (h1 : q ≤ 1) :
    (byteOfChannel q : ℤ) = ⌊q * 255⌋ ∧
    ∀ (p : Pixels) (i : ℕ), i < p.pixels.length →
      (to_display_bytes p).get? (4 * i + 3) = some 255 := by
  constructor
  · have hlo : (0 : ℚ) ≤ q * 255 := by positivity
    have hhi : q * 255 ≤ 255 := by nlinarith
    have hmm : max 0 (min (q * 255) 255) = q * 255 := by
      rw [min_eq_left hhi, max_eq_right hlo]
    rw [byteOfChannel, hmm]
    exact Int.toNat_of_nonneg (Int.floor_nonneg.mpr hlo)
  · intro p i hi
    rw [to_display_bytes_eq, flat_bytes_get p.iter i 3 (by omega)]
    have : p.iter.get? i = some (p.iter.get ⟨i, by simp [Pixels.iter, hi]⟩) := by
      apply List.get?_eq_get
    rw [this]
    rfl

/-- Witness for C4 at the concrete channel value 1/2 and a concrete one-pixel
buffer. -/
theorem claim_C4_witness :
    (byteOfChannel (1/2) : ℤ) = ⌊(1/2 : ℚ) * 255⌋ ∧
    (to_display_bytes ⟨1, 1, [(⟨1, 0, 0⟩, 2)]⟩).get? 3 = some 255 :=
  ⟨(claim_C4_display_bytes (1/2) (by norm_num) (by norm_num)).1,
   (claim_C4_display_bytes (1/2) (by norm_num) (by norm_num)).2
     ⟨1, 1, [(⟨1, 0, 0⟩, 2)]⟩ 0 (by decide)⟩

/-- C5 counterexample: the conversion step does not invert the y coordinate.
On a 1×2 buffer whose two rows average to distinct colors, the code's
conversion emits the buffer rows in index order, which differs from the
spec-worded y-inverting conversion. (The vertical flip happens earlier, when a
sample is deposited: `draw` rewrites `y` to `height - 1 - y` before
`add_color`, so the buffer already stores the top row at index 0.) -/
theorem claim_C5_counterexample :
    to_display_bytes ⟨1, 2, [(⟨1, 0, 0⟩, 1), (⟨0, 0, 0⟩, 1)]⟩ ≠
      specFlippedBytes ⟨1, 2, [(⟨1, 0, 0⟩, 1), (⟨0, 0, 0⟩, 1)]⟩ := by
  have hl : to_display_bytes ⟨1, 2, [(⟨1, 0, 0⟩, 1), (⟨0, 0, 0⟩, 1)]⟩ =
      [255, 0, 0, 255, 0, 0, 0, 255] := by
    simp only [to_display_bytes_eq, Pixels.iter, bytesOf, List.map_cons,
      List.map_nil, List.flatMap_cons, List.flatMap_nil, byteOfChannel,
      Vec3.sdiv, BLACK]
    norm_num
    decide
  have hr : specFlippedBytes ⟨1, 2, [(⟨1, 0, 0⟩, 1), (⟨0, 0, 0⟩, 1)]⟩ =
      [0, 0, 0, 255, 255, 0, 0, 255] := by
    simp only [specFlippedBytes, Pixels.iter, List.map_cons, List.map_nil,
      byteOfChannel, Vec3.sdiv, BLACK]
    norm_num [List.range_succ]
    decide
  rw [hl, hr]
  decide

/-- C5 (amended): converting the accumulation buffer to display bytes yields
`width * height * 4` bytes in row-major order, with the byte group of output
pixel `i` taken from buffer pixel `i` (no inversion during conversion); the y
inversion happens instead when a sample is deposited, `draw` flipping the
sampled `y` to `height - 1 - y` before calling `add_color`, so the buffer
stores the displayed top row at index 0. -/
theorem claim_C5_display_layout (p : Pixels)
    (hlen : p.pixels.length = p.width * p.height) :
    (to_display_bytes p).length = p.width * p.height * 4 ∧
    (∀ (i : ℕ) (c : Color), p.iter.get? i = some c →
      (to_display_bytes p).get? (4 * i) = some (byteOfChannel c.x) ∧
      (to_display_bytes p).get? (4 * i + 1) = some (byteOfChannel c.y) ∧
      (to_display_bytes p).get? (4 * i + 2) = some (byteOfChannel c.z) ∧
      (to_display_bytes p).get? (4 * i + 3) = some 255) ∧
    (∀ (x y : ℕ) (c : Color),
      depositSample p x y c = add_color p x (p.height - 1 - y) c) := by
  refine ⟨?_, ?_, fun x y c => rfl⟩
  · rw [to_display_bytes_eq, flat_bytes_length]
    simp [Pixels.iter, hlen]
    ring
  · intro i c hc
    have h0 := flat_bytes_get p.iter i 0 (by omega)
    have h1 := flat_bytes_get p.iter i 1 (by omega)
    have h2 := flat_bytes_get p.iter i 2 (by omega)
    have h3 := flat_bytes_get p.iter i 3 (by omega)
    rw [hc] at h0 h1 h2 h3
    rw [to_display_bytes_eq]
    refine ⟨?_, ?_, ?_, ?_⟩
    · simpa using h0
    · exact h1
    · exact h2
    · exact h3

/-- Witness for C5 on a concrete 1×2 buffer. -/
theorem claim_C5_witness :
    (to_display_bytes ⟨1, 2, [(⟨1, 0, 0⟩, 1), (⟨0, 0, 0⟩, 1)]⟩).length =
      1 * 2 * 4 :=
  (claim_C5_display_layout ⟨1, 2, [(⟨1, 0, 0⟩, 1), (⟨0, 0, 0⟩, 1)]⟩
    (by decide)).1

/-! ## Scene-construction claims (C7) -/

/-- C7 counterexample: with an all-zero jitter, the cell `(4, 0)` has center
`(4, 0.2, 0)` and is skipped by the source (its center coincides with the
source's exclusion reference `vec3!(4.0, 0.2, 0.0)`), yet it does not lie
within 0.9 units of the claim's exclusion point `(3, 2, 0)` — the claim's
"skipped exactly when within 0.9 of (3, 2, 0)" is false at this input. -/
theorem claim_C7_counterexample :
    (cellStep unitOps () 4 0).1 = none ∧
    ¬ (((cellCenter unitOps () 4 0).1 - claimedExclusionPoint).normSq
        < 81/100) := by
  constructor
  · norm_num [cellStep, cellCenter, unitOps, exclusionPoint, Vec3.sub_def,
      Vec3.normSq]
  · norm_num [cellCenter, unitOps, claimedExclusionPoint, Vec3.sub_def,
      Vec3.normSq]

set_option maxRecDepth 8000 in
/-- C7 (amended): during scene construction, a grid cell is skipped exactly
when its jittered center lies within 0.9 units of the fixed exclusion point
`(4, 0.2, 0)` (the distance test done on squared norms, `normSq < 0.81`);
every kept cell contributes a sphere of radius 0.2 centered at the jittered
center; and the grid is the 22×22 set of offsets in `[-11, 11)` on both axes,
scanned in order. -/
theorem claim_C7_grid_exclusion {R : Type} (ops : RTOps R) (r : R)
    (a b : ℤ) :
    ((cellStep ops r a b).1 = none ↔
      ((cellCenter ops r a b).1 - exclusionPoint).normSq < 81/100) ∧
    (∀ o : Object, (cellStep ops r a b).1 = some o →
      o.sphere.radius = 1/5 ∧ o.sphere.center = (cellCenter ops r a b).1) ∧
    gridCells.length = 22 * 22 ∧
    (∀ ab ∈ gridCells,
      -11 ≤ ab.1 ∧ ab.1 < 11 ∧ -11 ≤ ab.2 ∧ ab.2 < 11) := by
  refine ⟨?_, ?_, by decide, ?_⟩
  · rcases hc : cellCenter ops r a b with ⟨center, r1⟩
    rcases hg1 : ops.genRange r1 0 1 with ⟨rv, r2⟩
    rcases hv1 : ops.genVector r2 with ⟨v1, r3⟩
    rcases hv2 : ops.genVector r3 with ⟨v2, r4⟩
    rcases hg2 : ops.genRange r3 0 (1/2) with ⟨fz, r5⟩
    simp only [cellStep, hc, hg1, hv1, hv2, hg2]
    split_ifs with hin h1 h2 <;> simp [hin]
  · intro o ho
    rcases hc : cellCenter ops r a b with ⟨center, r1⟩
    rcases hg1 : ops.genRange r1 0 1 with ⟨rv, r2⟩
    rcases hv1 : ops.genVector r2 with ⟨v1, r3⟩
    rcases hv2 : ops.genVector r3 with ⟨v2, r4⟩
    rcases hg2 : ops.genRange r3 0 (1/2) with ⟨fz, r5⟩
    simp only [cellStep, hc, hg1, hv1, hv2, hg2] at ho
    split_ifs at ho with hin h1 h2 <;>
      simp only [Option.some.injEq, reduceCtorEq] at ho <;>
      subst ho <;> exact ⟨rfl, rfl⟩
  · intro ab hab
    revert hab
    revert ab
    decide

/-- Witness for C7: at cell `(0, 0)` with all-zero jitter, the cell is kept
and the produced object has radius 0.2 and the jittered center. -/
theorem claim_C7_witness :
    (⟨Sphere.new ⟨0, 1/5, 0⟩ (1/5), Material.lambertian ⟨0, 0, 0⟩⟩ :
        Object).sphere.radius = 1/5 ∧
    (⟨Sphere.new ⟨0, 1/5, 0⟩ (1/5), Material.lambertian ⟨0, 0, 0⟩⟩ :
        Object).sphere.center = (cellCenter unitOps () 0 0).1 :=
  (claim_C7_grid_exclusion unitOps () 0 0).2.1 _
    (by norm_num [cellStep, cellCenter, unitOps, exclusionPoint, Sphere.new,
      Vec3.sub_def, Vec3.normSq, Vec3.mul_def, Vec3.powf2])

/-! ## Accumulation-buffer lemmas (C3, C10) -/

theorem bump_length (c : Color) : ∀ (i : ℕ) (l : List (Color × ℕ)),
    (bump c i l).length = l.length := by
  intro i l
  induction l generalizing i with
  | nil => cases i <;> rfl
  | cons e rest ih =>
    cases i with
    | zero => rfl
    | succ i => simpa [bump] using ih i

theorem bump_get_eq (c : Color) : ∀ (i : ℕ) (l : List (Color × ℕ)),
    (bump c i l).get? i = (l.get? i).map (fun e => (e.1 + c, e.2 + 1)) := by
  intro i l
  induction l generalizing i with
  | nil => cases i <;> rfl
  | cons e rest ih =>
    cases i with
    | zero => rfl
    | succ i => simpa [bump] using ih i

theorem bump_get_ne (c : Color) : ∀ (i j : ℕ) (l : List (Color × ℕ)),
    j ≠ i → (bump c i l).get? j = l.get? j := by
  intro i j l
  induction l generalizing i j with
  | nil => intro _; cases i <;> rfl
  | cons e rest ih =>
    intro hne
    cases i with
    | zero =>
      cases j with
      | zero => exact absurd rfl hne
      | succ j => rfl
    | succ i =>
      cases j with
      | zero => rfl
      | succ j => simpa [bump] using ih i j (by omega)

/-- C10: `add_color(x, y, color)` at an in-bounds pixel touches exactly the
buffer entry at index `y * width + x` — adding the color to its running sum
and incrementing its count by one — and leaves every other entry, the width
and the height unchanged. -/
theorem claim_C10_add_color_frame (p : Pixels) (x y : ℕ) (c : Color)
    (hx : x < p.width) (hy : y < p.height) :
    (add_color p x y c).width = p.width ∧
    (add_color p x y c).height = p.height ∧
    (add_color p x y c).pixels.length = p.pixels.length ∧
    (add_color p x y c).pixels.get? (y * p.width + x) =
      (p.pixels.get? (y * p.width + x)).map (fun e => (e.1 + c, e.2 + 1)) ∧
    (∀ j : ℕ, j ≠ y * p.width + x →
      (add_color p x y c).pixels.get? j = p.pixels.get? j) :=
  ⟨rfl, rfl, bump_length c _ p.pixels, bump_get_eq c _ p.pixels,
   fun j hj => bump_get_ne c _ j p.pixels hj⟩

/-- Witness for C10 on a concrete 2×1 buffer. -/
theorem claim_C10_witness :
    (add_color (Pixels.new 2 1) 1 0 ⟨1, 0, 0⟩).pixels.get? 0 =
      (Pixels.new 2 1).pixels.get? 0 :=
  (claim_C10_add_color_frame (Pixels.new 2 1) 1 0 ⟨1, 0, 0⟩
    (by norm_num [Pixels.new]) (by norm_num [Pixels.new])).2.2.2.2 0
    (by norm_num [Pixels.new])

theorem Vec3.add_black (v : Vec3) : v + BLACK = v := by
  cases v
  simp [Vec3.add_def, BLACK]

theorem Vec3.black_add (v : Vec3) : BLACK + v = v := by
  cases v
  simp [Vec3.add_def, BLACK]

theorem Vec3.add_assoc3 (u v w : Vec3) : u + v + w = u + (v + w) := by
  simp [Vec3.add_def, add_assoc]

/-- The sum of a list of colors (componentwise). -/
def sumColors : List Color → Color
  | [] => BLACK
  | c :: rest => c + sumColors rest

/-- The `add_color` calls recorded against pixel `(x, y)`. -/
def opsAt (x y : ℕ) (ops : List (ℕ × ℕ × Color)) : List (ℕ × ℕ × Color) :=
  ops.filter (fun op => decide (op.1 = x ∧ op.2.1 = y))

theorem runAdds_get (i w : ℕ) : ∀ (ops : List (ℕ × ℕ × Color)) (p : Pixels),
    p.width = w →
    (runAdds p ops).pixels.get? i =
      (p.pixels.get? i).map (fun e =>
        (e.1 + sumColors ((ops.filter
            (fun op => decide (op.2.1 * w + op.1 = i))).map (fun op => op.2.2)),
         e.2 + (ops.filter
            (fun op => decide (op.2.1 * w + op.1 = i))).length)) := by
  intro ops
  induction ops with
  | nil =>
    intro p _
    show p.pixels.get? i = _
    cases hp : p.pixels.get? i with
    | none => rfl
    | some e =>
      simp [sumColors, Vec3.add_black]
  | cons op rest ih =>
    obtain ⟨x, y, c⟩ := op
    intro p hw
    have hpix : (add_color p x y c).pixels = bump c (y * w + x) p.pixels := by
      rw [add_color, hw]
    have hw' : (add_color p x y c).width = w := hw
    have hstep : (runAdds p ((x, y, c) :: rest)).pixels.get? i =
        (runAdds (add_color p x y c) rest).pixels.get? i := rfl
    rw [hstep, ih (add_color p x y c) hw', hpix]
    by_cases heq : y * w + x = i
    · rw [heq, bump_get_eq]
      cases hp : p.pixels.get? i with
      | none => simp
      | some e =>
        have hsel : decide ((x, y, c).2.1 * w + (x, y, c).1 = i) = true := by
          simp [← heq]
        simp only [List.filter_cons, hsel, if_true, Option.map_some,
          List.map_cons, sumColors, List.length_cons]
        refine congrArg some ?_
        refine Prod.ext ?_ ?_
        · simp [Vec3.add_assoc3]
        · simp [Nat.add_comm, Nat.add_assoc, Nat.add_left_comm]
    · rw [bump_get_ne c _ i p.pixels (fun hx => heq hx.symm)]
      have hsel : decide ((x, y, c).2.1 * w + (x, y, c).1 = i) = false := by
        simp [heq]
      simp only [List.filter_cons, hsel, if_false]
      rfl

theorem index_inj {w x x' y y' : ℕ} (hx : x < w) (hx' : x' < w)
    (he : y' * w + x' = y * w + x) : x' = x ∧ y' = y := by
  have h1 : (y' * w + x') % w = x' := by
    rw [Nat.add_comm, Nat.add_mul_mod_self_right, Nat.mod_eq_of_lt hx']
  have h2 : (y * w + x) % w = x := by
    rw [Nat.add_comm, Nat.add_mul_mod_self_right, Nat.mod_eq_of_lt hx]
  have hxx : x' = x := by rw [← h1, he, h2]
  subst hxx
  exact ⟨rfl, Nat.eq_of_mul_eq_mul_right (by omega) (Nat.add_right_cancel he)⟩

/-- C3: starting from a fresh buffer, after any in-bounds sequence of
`add_color` calls, the snapshot (`Pixels::iter`) value at an in-bounds pixel
`(x, y)` equals the sum of the colors deposited at that pixel divided by their
number, and is black when no sample was deposited there. (Division is exact in
the `ℚ` model; the source accumulates the same sums in `f64`.) -/
theorem claim_C3_average (w h x y : ℕ) (ops : List (ℕ × ℕ × Color))
    (hops : ∀ op ∈ ops, op.1 < w ∧ op.2.1 < h) (hx : x < w) (hy : y < h) :
    (runAdds (Pixels.new w h) ops).iter.get? (y * w + x) =
      some (if 0 < (opsAt x y ops).length
        then (sumColors ((opsAt x y ops).map (fun op => op.2.2))).sdiv
          ((opsAt x y ops).length : ℚ)
        else BLACK) := by
  have hfilter : ops.filter (fun op => decide (op.2.1 * w + op.1 = y * w + x)) =
      opsAt x y ops := by
    rw [opsAt]
    apply List.filter_congr
    intro op hop
    obtain ⟨hxo, hyo⟩ := hops op hop
    simp only [decide_eq_decide]
    constructor
    · intro he
      exact index_inj hx hxo he
    · rintro ⟨h1, h2⟩
      rw [h1, h2]
  have hlt : y * w + x < w * h := by
    calc y * w + x < y * w + w := by omega
    _ = (y + 1) * w := by ring
    _ ≤ h * w := Nat.mul_le_mul_right w hy
    _ = w * h := Nat.mul_comm h w
  have hrepl : (Pixels.new w h).pixels.get? (y * w + x) = some (BLACK, 0) := by
    rw [Pixels.new]
    rw [List.get?_eq_getElem?]
    simp [hlt]
  rw [Pixels.iter, List.get?_map, runAdds_get (y * w + x) w ops
    (Pixels.new w h) rfl, hrepl, hfilter]
  simp [Vec3.black_add]

/-- Witness for C3: two samples at pixel (0, 0) of a 1×1 buffer averaging to
the midpoint color. -/
theorem claim_C3_witness :
    (runAdds (Pixels.new 1 1) [(0, 0, ⟨1, 0, 0⟩), (0, 0, ⟨0, 0, 0⟩)]).iter.get?
        0 =
      some (if 0 < (opsAt 0 0 [(0, 0, (⟨1, 0, 0⟩ : Color)),
          (0, 0, ⟨0, 0, 0⟩)]).length
        then (sumColors ((opsAt 0 0 [(0, 0, (⟨1, 0, 0⟩ : Color)),
            (0, 0, ⟨0, 0, 0⟩)]).map (fun op => op.2.2))).sdiv
          ((opsAt 0 0 [(0, 0, (⟨1, 0, 0⟩ : Color)),
            (0, 0, ⟨0, 0, 0⟩)]).length : ℚ)
        else BLACK) := by
  have h := claim_C3_average 1 1 0 0
    [(0, 0, ⟨1, 0, 0⟩), (0, 0, ⟨0, 0, 0⟩)]
    (by intro op hop; fin_cases hop <;> norm_num)
    (by norm_num) (by norm_num)
  simpa using h

/-! ## Nearest-hit refinement (C2) -/

/-- Under the intersection contract, the source's scan loop with its running
`t_max` computes the same result as the spec's scan (which queries each object
unboundedly), provided the running bound is `⊤` when no best hit is held and
the best hit's `t` otherwise — the loop's invariant. -/
theorem hitLoop_eq_specScan {objHit : Object → WithTop ℚ → Option HitPoint}
    {fullHit : Object → Option HitPoint} (hc : HitContract objHit fullHit) :
    ∀ (l : List Object) (best : Option (HitPoint × Material))
      (tMax : WithTop ℚ),
      (best = none → tMax = ⊤) →
      (∀ h m, best = some (h, m) → tMax = (h.t : WithTop ℚ)) →
      hitLoop objHit l tMax best = specScan fullHit l best := by
  intro l
  induction l with
  | nil => intro best tMax _ _; rfl
  | cons o rest ih =>
    intro best tMax hnone hsome
    cases hfo : fullHit o with
    | none =>
      have hobj : objHit o tMax = none := by
        rw [hc o tMax, hfo]
      simp only [hitLoop, specScan, hobj, hfo]
      exact ih best tMax hnone hsome
    | some h =>
      cases best with
      | none =>
        obtain rfl : tMax = ⊤ := hnone rfl
        have hobj : objHit o ⊤ = some h := by
          rw [hc o ⊤, hfo]
          exact if_pos (WithTop.coe_lt_top h.t)
        simp only [hitLoop, specScan, hobj, hfo]
        exact ih (some (h, o.material)) _ (fun hx => by cases hx)
          (fun h' m' he => by cases he; rfl)
      | some hm =>
        obtain ⟨h₀, m₀⟩ := hm
        obtain rfl : tMax = (h₀.t : WithTop ℚ) := hsome h₀ m₀ rfl
        by_cases hlt : h.t < h₀.t
        · have hobj : objHit o (h₀.t : WithTop ℚ) = some h := by
            rw [hc o _, hfo]
            exact if_pos (by exact_mod_cast hlt)
          simp only [hitLoop, specScan, hobj, hfo,
            if_neg (not_le.mpr hlt)]
          exact ih (some (h, o.material)) _ (fun hx => by cases hx)
            (fun h' m' he => by cases he; rfl)
        · have hobj : objHit o (h₀.t : WithTop ℚ) = none := by
            rw [hc o _, hfo]
            exact if_neg (by exact_mod_cast hlt)
          simp only [hitLoop, specScan, hobj, hfo,
            if_pos (not_lt.mp hlt)]
          exact ih (some (h₀, m₀)) _ (fun hx => by cases hx)
            (fun h' m' he => by cases he; rfl)

/-- A result of the spec scan is minimal: its `t` is at or below every full
hit of the scanned objects and at or below the incoming best. -/
theorem specScan_min {fullHit : Object → Option HitPoint} :
    ∀ (l : List Object) (best : Option (HitPoint × Material)) (h : HitPoint)
      (m : Material),
      specScan fullHit l best = some (h, m) →
      (∀ o ∈ l, ∀ h', fullHit o = some h' → h.t ≤ h'.t) ∧
      (∀ h₀ m₀, best = some (h₀, m₀) → h.t ≤ h₀.t) := by
  intro l
  induction l with
  | nil =>
    intro best h m hbest
    refine ⟨fun o ho => absurd ho (List.not_mem_nil o), ?_⟩
    intro h₀ m₀ hb
    rw [hb] at hbest
    cases hbest
    exact le_refl _
  | cons o rest ih =>
    intro best h m hscan
    cases hfo : fullHit o with
    | none =>
      simp only [specScan, hfo] at hscan
      obtain ⟨h1, h2⟩ := ih best h m hscan
      refine ⟨?_, h2⟩
      intro o' ho' h' hf'
      rcases List.mem_cons.mp ho' with rfl | ho'
      · rw [hfo] at hf'; cases hf'
      · exact h1 o' ho' h' hf'
    | some hnew =>
      cases best with
      | none =>
        simp only [specScan, hfo] at hscan
        obtain ⟨h1, h2⟩ := ih (some (hnew, o.material)) h m hscan
        have hle : h.t ≤ hnew.t := h2 hnew o.material rfl
        refine ⟨?_, fun h₀ m₀ hb => by cases hb⟩
        intro o' ho' h' hf'
        rcases List.mem_cons.mp ho' with rfl | ho'
        · rw [hfo] at hf'; cases hf'; exact hle
        · exact h1 o' ho' h' hf'
      | some hm₀ =>
        obtain ⟨h₀, m₀⟩ := hm₀
        simp only [specScan, hfo] at hscan
        by_cases hcmp : h₀.t ≤ hnew.t
        · rw [if_pos hcmp] at hscan
          obtain ⟨h1, h2⟩ := ih (some (h₀, m₀)) h m hscan
          have hle₀ : h.t ≤ h₀.t := h2 h₀ m₀ rfl
          refine ⟨?_, ?_⟩
          · intro o' ho' h' hf'
            rcases List.mem_cons.mp ho' with rfl | ho'
            · rw [hfo] at hf'; cases hf'; exact le_trans hle₀ hcmp
            · exact h1 o' ho' h' hf'
          · intro h₀' m₀' hb
            cases hb
            exact hle₀
        · rw [if_neg hcmp] at hscan
          obtain ⟨h1, h2⟩ := ih (some (hnew, o.material)) h m hscan
          have hle : h.t ≤ hnew.t := h2 hnew o.material rfl
          refine ⟨?_, ?_⟩
          · intro o' ho' h' hf'
            rcases List.mem_cons.mp ho' with rfl | ho'
            · rw [hfo] at hf'; cases hf'; exact hle
            · exact h1 o' ho' h' hf'
          · intro h₀' m₀' hb
            cases hb
            exact le_trans hle (le_of_not_le hcmp)

/-- The spec scan yields nothing exactly when it started with nothing and no
scanned object reports a hit. -/
theorem specScan_none {fullHit : Object → Option HitPoint} :
    ∀ (l : List Object) (best : Option (HitPoint × Material)),
      specScan fullHit l best = none ↔
        best = none ∧ ∀ o ∈ l, fullHit o = none := by
  intro l
  induction l with
  | nil =>
    intro best
    simp [specScan]
  | cons o rest ih =>
    intro best
    cases hfo : fullHit o with
    | none =>
      simp only [specScan, hfo]
      rw [ih best]
      constructor
      · rintro ⟨hb, hall⟩
        refine ⟨hb, ?_⟩
        intro o' ho'
        rcases List.mem_cons.mp ho' with rfl | ho'
        · exact hfo
        · exact hall o' ho'
      · rintro ⟨hb, hall⟩
        exact ⟨hb, fun o' ho' => hall o' (List.mem_cons_of_mem o ho')⟩
    | some hnew =>
      cases best with
      | none =>
        simp only [specScan, hfo]
        rw [ih (some (hnew, o.material))]
        simp [hfo]
      | some hm₀ =>
        obtain ⟨h₀, m₀⟩ := hm₀
        simp only [specScan, hfo]
        constructor
        · intro hscan
          exfalso
          by_cases hcmp : h₀.t ≤ hnew.t
          · rw [if_pos hcmp, ih (some (h₀, m₀))] at hscan
            exact Option.noConfusion hscan.1
          · rw [if_neg hcmp, ih (some (hnew, o.material))] at hscan
            exact Option.noConfusion hscan.1
        · rintro ⟨hb, _⟩
          exact Option.noConfusion hb

/-- C2: under the spec's intersection contract, the source's scan — all
objects in scene order, running `t_max` initialized to `+∞` — returns exactly
the spec's nearest hit (minimal `t` with ties broken by first in scene order,
as `specScan` keeps the earlier hit on equal `t`); its result undercuts every
object's full hit, and it returns nothing exactly when no object reports a
hit. -/
theorem claim_C2_nearest_hit {objHit : Object → WithTop ℚ → Option HitPoint}
    {fullHit : Object → Option HitPoint} (objects : List Object)
    (hc : HitContract objHit fullHit) :
    nearestHit objHit objects = specNearest fullHit objects ∧
    (∀ h m, nearestHit objHit objects = some (h, m) →
      ∀ o ∈ objects, ∀ h', fullHit o = some h' → h.t ≤ h'.t) ∧
    (nearestHit objHit objects = none ↔ ∀ o ∈ objects, fullHit o = none) := by
  have he : nearestHit objHit objects = specNearest fullHit objects :=
    hitLoop_eq_specScan hc objects none ⊤ (fun _ => rfl)
      (fun h m hx => by cases hx)
  refine ⟨he, ?_, ?_⟩
  · intro h m hm o ho h' hf
    have hs : specScan fullHit objects none = some (h, m) := by
      rw [← specNearest, ← he]
      exact hm
    exact (specScan_min objects none h m hs).1 o ho h' hf
  · rw [he, specNearest, specScan_none]
    simp

/-- A concrete full-hit function for the C2 witness: every object reports a
hit whose parameter is its sphere's radius. -/
def wFullHit (o : Object) : Option HitPoint :=
  some ⟨o.sphere.center, o.sphere.center, o.sphere.radius, true⟩

/-- The bounded intersection matching `wFullHit` under the contract. -/
def wObjHit (o : Object) (tMax : WithTop ℚ) : Option HitPoint :=
  if ((o.sphere.radius : ℚ) : WithTop ℚ) < tMax
  then some ⟨o.sphere.center, o.sphere.center, o.sphere.radius, true⟩
  else none

/-- Witness for C2 on a concrete two-object scene. -/
theorem claim_C2_witness :
    nearestHit wObjHit
        [⟨Sphere.new ⟨0, 0, 0⟩ 2, Material.dielectric (3/2)⟩,
         ⟨Sphere.new ⟨1, 0, 0⟩ 1, Material.lambertian ⟨1, 0, 0⟩⟩] =
      specNearest wFullHit
        [⟨Sphere.new ⟨0, 0, 0⟩ 2, Material.dielectric (3/2)⟩,
         ⟨Sphere.new ⟨1, 0, 0⟩ 1, Material.lambertian ⟨1, 0, 0⟩⟩] :=
  (@claim_C2_nearest_hit wObjHit wFullHit
    [⟨Sphere.new ⟨0, 0, 0⟩ 2, Material.dielectric (3/2)⟩,
     ⟨Sphere.new ⟨1, 0, 0⟩ 1, Material.lambertian ⟨1, 0, 0⟩⟩]
    (fun _ _ => rfl)).1

end PixelsRay
